import Mathlib

/-!
Shallow embedding of the moodboard collection store
(`github.com/jackwilsdon/moodboard`): the shared reordering algorithm,
the volatile (in-memory) backend and the durable (file-backed) backend,
with proofs of the ordering, error-handling and persistence properties.

Per the specification's §9 note, the canonical data shape is the
item-with-position-fields-plus-image-plus-reordering variant: the
in-memory store here combines `server/memory/store.go` lines 517-729
(id+image records, `move`, `Delete`, `Create`, `All`, `GetImage`) with
the record-replacing `Update` of lines 465-481, and the file store
follows `server/file/store.go`.
-/

namespace Moodboard

/-- `moodboard.Item` (server/store.go): an uninterpreted unique id plus normalized position
fields. The store never computes with the numeric fields, so `float32`
is modelled by `ℚ`. -/
structure Item where
  id : String
  x : Rat
  y : Rat
  width : Rat
deriving Repr, DecidableEq, Inhabited

/-- Error kinds surfaced by the store: `moodboard.ErrNoSuchItem`, and the
generic wrapped I/O/decode failure class (`fmt.Errorf(...)`). -/
inductive StoreError where
  | noSuchItem
  | storageFailure
deriving Repr, DecidableEq, Inhabited

/-! ## The shared reordering algorithm (`move`)

`server/memory/store.go` lines 608-681 and `server/file/store.go` lines
220-354 contain the identical index-search and rotation logic; it is
embedded once, generically in the element type with a `key` projection
(`.id` for the memory store's records, the identity for the file store's
id strings). -/

/-- The index-search loop of `move` (memory/store.go lines 615-632):
walk the list once keeping the latest match for each id (Go overwrites
`index`/`target` on every match), breaking as soon as both are found;
`-1` means not found. `i` is the position of the head of the remaining
list, `st` the `(index, target)` accumulator. -/
def findIndexesAux (key : α → String) (id targetID : String) :
    List α → Nat → Int × Int → Int × Int
  | [], _, st => st
  | x :: xs, i, st =>
    let index := if key x = id then (i : Int) else st.1
    let target := if key x = targetID then (i : Int) else st.2
    if index ≠ -1 ∧ target ≠ -1 then (index, target)
    else findIndexesAux key id targetID xs (i + 1) (index, target)

/-- Positions of `id` and `targetID` (memory/store.go lines 615-632). -/
def findIndexes (key : α → String) (items : List α) (id targetID : String) : Int × Int :=
  findIndexesAux key id targetID items 0 (-1, -1)

/-- Go's built-in `copy` between two overlapping slices of one array
(memmove semantics): position `j` receives the element previously at
`j - dst + src` when `dst ≤ j < dst + n`, and keeps its element
otherwise. Positions past the end of the array do not exist, matching
`copy`'s min-length behaviour on the destination side. -/
def goCopyWithin (l : List α) (dst src n : Nat) : List α :=
  List.ofFn fun j : Fin l.length =>
    if dst ≤ (j : Nat) ∧ (j : Nat) < dst + n then l.getD ((j : Nat) - dst + src) (l.get j)
    else l.get j

/-- `move` (memory/store.go lines 608-681 = file/store.go lines 251-316):
find both positions, fail with `NoSuchItem` if either is missing, then
rotate the sub-range between them with two overlapping `copy`s and drop
the moved element into the freed slot. `before` distinguishes
`MoveBefore` from `MoveAfter`. -/
def moveGo [Inhabited α] (key : α → String) (items : List α) (id targetID : String)
    (before : Bool) : Except StoreError (List α) :=
  let p := findIndexes key items id targetID
  if p.1 = -1 ∨ p.2 = -1 then .error .noSuchItem
  else
    let index := p.1.toNat
    let target := p.2.toNat
    let item := items.getD index default
    if index < target then
      -- "If we're moving the item before the target and it's already before
      -- the target then we need to take 1 off the target" (line 644)
      let target := if before then target - 1 else target
      .ok ((goCopyWithin items index (index + 1) (target + 1 - (index + 1))).set target item)
    else if target < index then
      -- "If we're moving the item after the target and it's already after
      -- the target then we need to add 1 to the target" (line 663)
      let target := if before then target else target + 1
      .ok ((goCopyWithin items (target + 1) target (index - target)).set target item)
    else
      .ok (items.set target item)

/-- The rotation rule as the specification words it (§4.1): the moved
element is taken out of the order and re-inserted immediately before
(`before = true`) or immediately after (`before = false`) the reference
element, shifting only the elements strictly between the two positions.
Stated independently of `moveGo` for comparison. -/
def specMove [Inhabited α] (items : List α) (index target : Nat) (before : Bool) : List α :=
  let item := items.getD index default
  let dest :=
    if before then (if index < target then target - 1 else target)
    else (if index < target then target else target + 1)
  (items.eraseIdx index).insertIdx dest item

/-- The destination slot `dest` of the rotation, as a function of the
two positions and the direction. -/
def moveDest (i j : Nat) (before : Bool) : Nat :=
  if before then (if i < j then j - 1 else j)
  else (if i < j then j else j + 1)

/-! ## Volatile backend (in-memory store)

State and operations of the canonical in-memory store. Per the spec's
§9 note the record shape fuses the id+image store that owns `move`
(memory/store.go lines 517-729) with the full-record `Update` of the
`Item` variant (lines 465-481). -/

/-- One slot of the in-memory slice (`imageItem`): the item record plus
its image bytes. -/
structure CItem where
  item : Item
  image : List Nat
deriving Repr, DecidableEq, Inhabited

/-- The volatile store state: `items` is the Go slice; `none` models a
nil slice (freshly constructed store), `some` a non-nil slice. -/
structure MemStore where
  items : Option (List CItem)
deriving Repr, DecidableEq, Inhabited

/-- `NewStore()` (memory/store.go line 727): the zero-valued store. -/
def memNewStore : MemStore := ⟨none⟩

/-- Create (memory/store.go lines 541-563): read the image, generate a
fresh id (`uuid.New().String()` modelled as the explicit `id`
argument), append a record with zero-valued position fields. Go's
`append` on a nil slice yields a non-nil slice. -/
def memCreate (s : MemStore) (id : String) (img : List Nat) : MemStore × Item :=
  (⟨some (s.items.getD [] ++ [⟨⟨id, 0, 0, 0⟩, img⟩])⟩, ⟨id, 0, 0, 0⟩)

/-- All (memory/store.go lines 421-439, 566-585): nil in, nil out;
otherwise a fresh slice holding each record. The Go error result is
always nil. -/
def memAll (s : MemStore) : Except StoreError (Option (List Item)) :=
  match s.items with
  | none => .ok none
  | some l => .ok (some (l.map (fun c => c.item)))

/-- GetImage (memory/store.go lines 590-605): the image of the first
record with a matching id, else `ErrNoSuchItem`. -/
def memGetImage (s : MemStore) (id : String) : Except StoreError (List Nat) :=
  match (s.items.getD []).find? (fun c => c.item.id == id) with
  | some c => .ok c.image
  | none => .error .noSuchItem

/-- The replace-first-match loop of Update (memory/store.go lines
472-478): `s.items[i].item = item` keeps the image in the slot. -/
def memUpdateList (it : Item) : List CItem → Option (List CItem)
  | [] => none
  | c :: cs =>
    if c.item.id == it.id then some ({ c with item := it } :: cs)
    else (memUpdateList it cs).map (fun l => c :: l)

/-- Update (memory/store.go lines 465-481): replace the record at the
first matching index, `ErrNoSuchItem` when no id matches. -/
def memUpdate (s : MemStore) (it : Item) : MemStore × Option StoreError :=
  match memUpdateList it (s.items.getD []) with
  | some l => (⟨some l⟩, none)
  | none => (s, some .noSuchItem)

/-- Delete (memory/store.go lines 700-724): keep the records whose id
differs; if nothing was dropped report `ErrNoSuchItem`, otherwise
install the filtered (non-nil, `make`-allocated) slice. -/
def memDelete (s : MemStore) (id : String) : MemStore × Option StoreError :=
  let remaining := (s.items.getD []).filter (fun c => c.item.id != id)
  if (s.items.getD []).length = remaining.length then (s, some .noSuchItem)
  else (⟨some remaining⟩, none)

/-- move on the store state (memory/store.go lines 608-681): the Go
code mutates `s.items` only after both indexes were found, so every
failure leaves the slice exactly as it was. -/
def memMove (s : MemStore) (id targetID : String) (before : Bool) :
    MemStore × Option StoreError :=
  match moveGo (fun c => c.item.id) (s.items.getD []) id targetID before with
  | .ok l => (⟨some l⟩, none)
  | .error e => (s, some e)

/-- MoveBefore (memory/store.go lines 686-688). -/
def memMoveBefore (s : MemStore) (id beforeID : String) : MemStore × Option StoreError :=
  memMove s id beforeID true

/-- MoveAfter (memory/store.go lines 693-695). -/
def memMoveAfter (s : MemStore) (id afterID : String) : MemStore × Option StoreError :=
  memMove s id afterID false

/-! ## JSON index document codec

Modelled standard-library behaviour: `encoding/json` on a `[]string`
document, restricted to strings without characters that require JSON
escaping (the store only writes UUID strings, see `safeId`). -/

/-- Ids the store generates (UUIDs: hex digits and dashes) need no JSON
escaping; the codec round-trip lemmas are guarded by this predicate. -/
def safeId (s : String) : Bool := s.data.all fun c => c.isAlphanum || c = '-'

/-- A JSON string literal. -/
def encodeString (s : String) : List Char := '"' :: (s.data ++ ['"'])

/-- The comma-separated element list of a JSON array. -/
def encodeItems : List String → List Char
  | [] => []
  | [s] => encodeString s
  | s :: rest => encodeString s ++ ',' :: encodeItems rest

/-- `json.Encoder.Encode(items)`: the compact array plus a trailing
newline. -/
def encodeIndex (items : List String) : List Char :=
  '[' :: (encodeItems items ++ [']', '
'])

/-- One JSON string body up to the closing quote. -/
def parseStringBody : List Char → Option (List Char × List Char)
  | [] => none
  | c :: cs =>
    if c = '"' then some ([], cs)
    else
      match parseStringBody cs with
      | none => none
      | some (s, r) => some (c :: s, r)

/-- Comma-separated strings of a non-empty array up to the closing
bracket; `fuel` (one unit per element) makes the recursion structural. -/
def parseItems : Nat → List Char → Option (List String × List Char)
  | 0, _ => none
  | fuel + 1, '"' :: cs =>
    (match parseStringBody cs with
     | none => none
     | some (s, r) =>
       match r with
       | ',' :: cs2 =>
         (match parseItems fuel cs2 with
          | none => none
          | some (l, rest) => some (String.mk s :: l, rest))
       | ']' :: cs2 => some ([String.mk s], cs2)
       | _ => none)
  | _ + 1, _ => none

/-- Result of `json.Decoder.Decode(&items)` on the index file. -/
inductive DecodeResult where
  | eof
  | ok (items : List String) (rest : List Char)
  | err
deriving Repr, DecidableEq, Inhabited

/-- Empty input is `io.EOF`; otherwise one array of strings is decoded
and the remainder of the file is left unconsumed. -/
def decodeIndexDoc : List Char → DecodeResult
  | [] => .eof
  | '[' :: ']' :: rest => .ok [] rest
  | '[' :: cs =>
    (match parseItems cs.length cs with
     | some (l, rest) => .ok l rest
     | none => .err)
  | _ => .err

/-! ## Durable backend (file store), `server/file/store.go` -/

/-- Writing at offset 0 after `Seek(0, io.SeekStart)` without
truncating: the new bytes overlay the old content and any longer
leftover survives (the `Create` write path). -/
def overwrite (old new : List Char) : List Char :=
  new ++ old.drop new.length

/-- `f.Truncate(pos)` at the position just written (the `move` and
`Delete` write paths). -/
def truncateAt (content : List Char) (pos : Nat) : List Char :=
  content.take pos

/-- Durable backend state: the bytes of `index.json` (`none`: the file
does not exist) and the image blob files keyed by item id. -/
structure FS where
  index : Option (List Char)
  blobs : List (String × List Nat)
deriving Repr, DecidableEq, Inhabited

/-- `NewStore(path)` over an empty directory. -/
def fileNewStore : FS := ⟨none, []⟩

/-- Create (file/store.go lines 52-123): save the blob first (`O_EXCL`
fails if a file with that name exists), open/create `index.json`
(absent file reads as empty), decode treating EOF as the empty list,
append the fresh id, seek to 0 and re-encode — with **no truncation**.
On a decode failure the just-written blob is removed again (rollback),
leaving the store as it was. `id` models `uuid.New().String()`. -/
def fileCreate (fs : FS) (id : String) (img : List Nat) :
    FS × Except StoreError String :=
  if (fs.blobs.lookup id).isSome then (fs, .error .storageFailure)
  else
    let content := fs.index.getD []
    match decodeIndexDoc content with
    | .err => (fs, .error .storageFailure)
    | .eof =>
      (⟨some (overwrite content (encodeIndex [id])), fs.blobs ++ [(id, img)]⟩, .ok id)
    | .ok items _ =>
      (⟨some (overwrite content (encodeIndex (items ++ [id]))), fs.blobs ++ [(id, img)]⟩,
        .ok id)

/-- All (file/store.go lines 126-156): missing file → `nil, nil`; EOF →
the still-nil slice; otherwise the decoded array. -/
def fileAll (fs : FS) : Except StoreError (Option (List String)) :=
  match fs.index with
  | none => .ok none
  | some content =>
    match decodeIndexDoc content with
    | .eof => .ok none
    | .err => .error .storageFailure
    | .ok items _ => .ok (some items)

/-- GetImage (file/store.go lines 161-217): the id must occur in the
decoded index before the blob is even opened; a missing blob file also
surfaces as `ErrNoSuchItem`. -/
def fileGetImage (fs : FS) (id : String) : Except StoreError (List Nat) :=
  match fs.index with
  | none => .error .noSuchItem
  | some content =>
    match decodeIndexDoc content with
    | .eof => .error .noSuchItem
    | .err => .error .storageFailure
    | .ok items _ =>
      if items.contains id then
        match fs.blobs.lookup id with
        | some b => .ok b
        | none => .error .noSuchItem
      else .error .noSuchItem

/-- move (file/store.go lines 220-354): read, rotate (the shared
algorithm on the id strings), seek to 0, re-encode, truncate at the
write position. Blob files are untouched; every failure path returns
before the write. -/
def fileMove (fs : FS) (id targetID : String) (before : Bool) :
    FS × Option StoreError :=
  match fs.index with
  | none => (fs, some .noSuchItem)
  | some content =>
    match decodeIndexDoc content with
    | .eof => (fs, some .noSuchItem)
    | .err => (fs, some .storageFailure)
    | .ok items _ =>
      match moveGo (fun s => s) items id targetID before with
      | .error e => (fs, some e)
      | .ok items2 =>
        (⟨some (truncateAt (overwrite content (encodeIndex items2))
            (encodeIndex items2).length), fs.blobs⟩, none)

/-- MoveBefore (file/store.go lines 359-361). -/
def fileMoveBefore (fs : FS) (id beforeID : String) : FS × Option StoreError :=
  fileMove fs id beforeID true

/-- MoveAfter (file/store.go lines 366-368). -/
def fileMoveAfter (fs : FS) (id afterID : String) : FS × Option StoreError :=
  fileMove fs id afterID false

/-- Delete (file/store.go lines 373-456): drop the matching ids from
the index document, `ErrNoSuchItem` if nothing matched; re-encode and
truncate. The blob file of the deleted item is **not** removed. -/
def fileDelete (fs : FS) (id : String) : FS × Option StoreError :=
  match fs.index with
  | none => (fs, some .noSuchItem)
  | some content =>
    match decodeIndexDoc content with
    | .eof => (fs, some .noSuchItem)
    | .err => (fs, some .storageFailure)
    | .ok items _ =>
      let remaining := items.filter (fun s => s != id)
      if items.length = remaining.length then (fs, some .noSuchItem)
      else
        (⟨some (truncateAt (overwrite content (encodeIndex remaining))
            (encodeIndex remaining).length), fs.blobs⟩, none)

/-! ## The spec §8 concrete scenario, step by step -/

/-- After creating A, B, C (in that order, empty images). -/
def scenarioS3 : MemStore :=
  (memCreate (memCreate (memCreate memNewStore "A" []).1 "B" []).1 "C" []).1

/-- After `MoveBefore(C, A)`. -/
def scenarioS4 : MemStore := (memMove scenarioS3 "C" "A" true).1

/-- After `Delete(A)`. -/
def scenarioS5 : MemStore := (memDelete scenarioS4 "A").1

/-- After `Update(B, {x: 0.5, y: 0.5, width: 0.2})`. -/
def scenarioS6 : MemStore := (memUpdate scenarioS5 ⟨"B", 0.5, 0.5, 0.2⟩).1

/-! ### Helper lemmas about the rotation -/

theorem insertIdx_eq_take_cons_drop (l : List α) (a : α) (n : Nat) (h : n ≤ l.length) :
    l.insertIdx n a = l.take n ++ a :: l.drop n := by
  induction l generalizing n with
  | nil =>
    have : n = 0 := by simpa using h
    subst this
    rfl
  | cons x xs ih =>
    cases n with
    | zero => rfl
    | succ m =>
      simp only [List.insertIdx_succ_cons, List.take_succ_cons, List.drop_succ_cons,
        List.cons_append, List.cons.injEq, true_and]
      exact ih m (by simpa using h)

theorem set_append_cons (xs ys : List α) (a b : α) :
    (xs ++ b :: ys).set xs.length a = xs ++ a :: ys := by
  induction xs with
  | nil => rfl
  | cons x xs ih => simp only [List.cons_append, List.length_cons, List.set_cons_succ, ih]

theorem set_getElem_self_eq (l : List α) (i : Nat) (h : i < l.length) :
    l.set i l[i] = l := by
  rw [List.set_eq_take_cons_drop _ h, ← List.drop_eq_getElem_cons h, List.take_append_drop]

theorem goCopyWithin_eq (l : List α) (dst src n : Nat)
    (hd : dst + n ≤ l.length) (hs : src + n ≤ l.length) :
    goCopyWithin l dst src n = l.take dst ++ ((l.drop src).take n ++ l.drop (dst + n)) := by
  have hlen : (goCopyWithin l dst src n).length = l.length := by
    simp [goCopyWithin]
  apply List.ext_getElem
  · simp only [hlen, List.length_append, List.length_take, List.length_drop]
    omega
  · intro k h1 h2
    simp only [goCopyWithin]
    rw [List.getElem_ofFn]
    simp only [List.get_eq_getElem]
    rw [List.getElem_append]
    by_cases hk1 : k < dst
    · rw [dif_pos (by simp [List.length_take]; omega)]
      rw [if_neg (by omega), List.getElem_take]
    · rw [dif_neg (by simp [List.length_take]; omega)]
      rw [List.getElem_append]
      by_cases hk2 : k < dst + n
      · have hlt : k - (List.take dst l).length < ((l.drop src).take n).length := by
          simp [List.length_take, List.length_drop]; omega
        rw [dif_pos hlt, if_pos (by omega), List.getElem_take, List.getElem_drop]
        rw [List.getD_eq_getElem l _ (by omega)]
        congr 1
        simp only [List.length_take]
        omega
      · have hge : ¬ k - (List.take dst l).length < ((l.drop src).take n).length := by
          simp [List.length_take, List.length_drop]; omega
        rw [dif_neg hge, if_neg (by omega), List.getElem_drop]
        congr 1
        simp only [List.length_take, List.length_drop]
        omega

theorem nodup_key_ne (key : α → String) (items : List α)
    (hnd : (items.map key).Nodup) (m n : Nat) (hm : m < items.length)
    (hn : n < items.length) (hmn : m ≠ n) :
    key items[m] ≠ key items[n] := by
  intro hEq
  have hm' : m < (items.map key).length := by simpa using hm
  have hn' : n < (items.map key).length := by simpa using hn
  have : (items.map key)[m] = (items.map key)[n] := by
    rw [List.getElem_map, List.getElem_map]
    exact hEq
  exact hmn (hnd.getElem_inj_iff.mp this)

/-- If the index is already found (`a ≠ -1`) and the pending part of the
list contains no further match for either id until the first match `z`
for `targetID`, the loop stops right there. -/
theorem findAux_break_target (key : α → String) (id tgt : String)
    (ys : List α) (z : α) (zs : List α) (k : Nat) (a : Int) (ha : a ≠ -1)
    (hys : ∀ y ∈ ys, key y ≠ id ∧ key y ≠ tgt) (hz : key z = tgt) (hzi : key z ≠ id) :
    findIndexesAux key id tgt (ys ++ z :: zs) k (a, -1) = (a, ((k + ys.length : Nat) : Int)) := by
  induction ys generalizing k with
  | nil =>
    simp only [List.nil_append, findIndexesAux, if_neg hzi, if_pos hz]
    rw [if_pos ⟨ha, by omega⟩]
    simp
  | cons y ys ih =>
    have h1 : key y ≠ id := (hys y (by simp)).1
    have h2 : key y ≠ tgt := (hys y (by simp)).2
    simp only [List.cons_append, findIndexesAux, if_neg h1, if_neg h2]
    rw [if_neg (by simp)]
    simp only [List.append_eq]
    rw [ih (k + 1) (fun y hy => hys y (by simp [hy]))]
    congr 1
    simp only [List.length_cons]
    omega

/-- Symmetric version: target already found, scanning for the id. -/
theorem findAux_break_index (key : α → String) (id tgt : String)
    (ys : List α) (z : α) (zs : List α) (k : Nat) (b : Int) (hb : b ≠ -1)
    (hys : ∀ y ∈ ys, key y ≠ id ∧ key y ≠ tgt) (hz : key z = id) (hzt : key z ≠ tgt) :
    findIndexesAux key id tgt (ys ++ z :: zs) k (-1, b) = (((k + ys.length : Nat) : Int), b) := by
  induction ys generalizing k with
  | nil =>
    simp only [List.nil_append, findIndexesAux, if_pos hz, if_neg hzt]
    rw [if_pos ⟨by omega, hb⟩]
    simp
  | cons y ys ih =>
    have h1 : key y ≠ id := (hys y (by simp)).1
    have h2 : key y ≠ tgt := (hys y (by simp)).2
    simp only [List.cons_append, findIndexesAux, if_neg h1, if_neg h2]
    rw [if_neg (by simp)]
    simp only [List.append_eq]
    rw [ih (k + 1) (fun y hy => hys y (by simp [hy]))]
    congr 2
    simp only [List.length_cons]
    omega

/-- Walking a prefix with no matches just advances the counter. -/
theorem findAux_skip (key : α → String) (id tgt : String)
    (ys rest : List α) (k : Nat)
    (hys : ∀ y ∈ ys, key y ≠ id ∧ key y ≠ tgt) :
    findIndexesAux key id tgt (ys ++ rest) k (-1, -1)
      = findIndexesAux key id tgt rest (k + ys.length) (-1, -1) := by
  induction ys generalizing k with
  | nil => simp
  | cons y ys ih =>
    have h1 : key y ≠ id := (hys y (by simp)).1
    have h2 : key y ≠ tgt := (hys y (by simp)).2
    simp only [List.cons_append, findIndexesAux, if_neg h1, if_neg h2]
    rw [if_neg (by simp)]
    simp only [List.append_eq]
    rw [ih (k + 1) (fun y hy => hys y (by simp [hy]))]
    congr 1
    simp only [List.length_cons]
    omega

theorem mem_take_getElem (l : List α) (n : Nat) (y : α) (hy : y ∈ l.take n) :
    ∃ m, m < n ∧ ∃ hm : m < l.length, l[m] = y := by
  obtain ⟨m, hm, he⟩ := List.getElem_of_mem hy
  rw [List.getElem_take] at he
  have hle : m < n ∧ m < l.length := by
    simp only [List.length_take] at hm
    omega
  exact ⟨m, hle.1, hle.2, he⟩

theorem mem_drop_take_getElem (l : List α) (s n : Nat) (y : α)
    (hy : y ∈ (l.drop s).take n) :
    ∃ m, m < n ∧ ∃ hm : s + m < l.length, l[s + m] = y := by
  obtain ⟨m, hm, he⟩ := List.getElem_of_mem hy
  rw [List.getElem_take, List.getElem_drop] at he
  have hle : m < n ∧ s + m < l.length := by
    simp only [List.length_take, List.length_drop] at hm
    omega
  exact ⟨m, hle.1, hle.2, he⟩

theorem list_split_two (l : List α) (i j : Nat) (hij : i < j) (hj : j < l.length) :
    l = l.take i ++ l[i] :: ((l.drop (i + 1)).take (j - i - 1) ++ l[j] :: l.drop (j + 1)) := by
  have hi : i < l.length := Nat.lt_trans hij hj
  conv_lhs => rw [← List.take_append_drop i l, List.drop_eq_getElem_cons hi]
  congr 2
  conv_lhs => rw [← List.take_append_drop (j - i - 1) (l.drop (i + 1))]
  rw [List.drop_drop]
  congr 1
  have harith : i + 1 + (j - i - 1) = j := by omega
  rw [harith, List.drop_eq_getElem_cons hj]

/-- Both ids present at distinct positions, all ids distinct: the search
loop of `move` finds exactly those two positions. -/
theorem findIndexes_eq (key : α → String) (items : List α) (i j : Nat)
    (hi : i < items.length) (hj : j < items.length) (hij : i ≠ j)
    (hnd : (items.map key).Nodup) (id tgt : String)
    (hkid : key items[i] = id) (hktgt : key items[j] = tgt) :
    findIndexes key items id tgt = ((i : Int), (j : Int)) := by
  have hidtgt : id ≠ tgt := by
    rw [← hkid, ← hktgt]
    exact nodup_key_ne key items hnd i j hi hj hij
  rcases Nat.lt_or_ge i j with hlt | hge
  · rw [findIndexes]
    rw [list_split_two items i j hlt hj]
    rw [findAux_skip key _ _ _ _ 0 ?hpre]
    case hpre =>
      intro y hy
      obtain ⟨m, hm, hml, he⟩ := mem_take_getElem items i y hy
      subst he
      exact ⟨hkid ▸ nodup_key_ne key items hnd m i hml hi (by omega),
        hktgt ▸ nodup_key_ne key items hnd m j hml hj (by omega)⟩
    simp only [findIndexesAux, if_pos hkid,
      if_neg (hktgt ▸ nodup_key_ne key items hnd i j hi hj hij)]
    rw [if_neg (by simp)]
    rw [findAux_break_target key _ _ _ _ _ _ _ (by omega) ?hmid hktgt
      (hkid ▸ Ne.symm (nodup_key_ne key items hnd i j hi hj hij))]
    case hmid =>
      intro y hy
      obtain ⟨m, hm, hml, he⟩ := mem_drop_take_getElem items (i + 1) (j - i - 1) y hy
      subst he
      exact ⟨hkid ▸ nodup_key_ne key items hnd (i + 1 + m) i hml hi (by omega),
        hktgt ▸ nodup_key_ne key items hnd (i + 1 + m) j hml hj (by omega)⟩
    have hq : 0 + (items.take i).length = i := by
      simp only [List.length_take]
      omega
    rw [hq]
    have hr : i + 1 + ((items.drop (i + 1)).take (j - i - 1)).length = j := by
      simp only [List.length_take, List.length_drop]
      omega
    rw [hr]
  · have hgt : j < i := by omega
    rw [findIndexes]
    rw [list_split_two items j i hgt hi]
    rw [findAux_skip key _ _ _ _ 0 ?hpre2]
    case hpre2 =>
      intro y hy
      obtain ⟨m, hm, hml, he⟩ := mem_take_getElem items j y hy
      subst he
      exact ⟨hkid ▸ nodup_key_ne key items hnd m i hml hi (by omega),
        hktgt ▸ nodup_key_ne key items hnd m j hml hj (by omega)⟩
    simp only [findIndexesAux, if_pos hktgt,
      if_neg (hkid ▸ nodup_key_ne key items hnd j i hj hi (Ne.symm hij))]
    rw [if_neg (by simp)]
    rw [findAux_break_index key _ _ _ _ _ _ _ (by omega) ?hmid2 hkid
      (hktgt ▸ nodup_key_ne key items hnd i j hi hj hij)]
    case hmid2 =>
      intro y hy
      obtain ⟨m, hm, hml, he⟩ := mem_drop_take_getElem items (j + 1) (i - j - 1) y hy
      subst he
      exact ⟨hkid ▸ nodup_key_ne key items hnd (j + 1 + m) i hml hi (by omega),
        hktgt ▸ nodup_key_ne key items hnd (j + 1 + m) j hml hj (by omega)⟩
    have hq : 0 + (items.take j).length = j := by
      simp only [List.length_take]
      omega
    rw [hq]
    have hr : j + 1 + ((items.drop (j + 1)).take (i - j - 1)).length = i := by
      simp only [List.length_take, List.length_drop]
      omega
    rw [hr]

theorem set_append_cons_of_length (xs ys : List α) (a b : α) (n : Nat)
    (h : xs.length = n) : (xs ++ b :: ys).set n a = xs ++ a :: ys := by
  subst h
  exact set_append_cons xs ys a b

/-- The left-shift branch of `move` (`index < target`, after the
`before` adjustment `t`) equals remove-then-reinsert at `t`. -/
theorem rotate_left_eq (items : List α) (i t : Nat) (d : α)
    (hit : i ≤ t) (ht : t < items.length) :
    (goCopyWithin items i (i + 1) (t + 1 - (i + 1))).set t d
      = (items.eraseIdx i).insertIdx t d := by
  have harg : t + 1 - (i + 1) = t - i := by omega
  rw [harg, goCopyWithin_eq items i (i + 1) (t - i) (by omega) (by omega)]
  have hdst : i + (t - i) = t := by omega
  rw [hdst, List.drop_eq_getElem_cons ht, ← List.append_assoc]
  rw [set_append_cons_of_length _ _ _ _ t
    (by simp only [List.length_append, List.length_take, List.length_drop]; omega)]
  rw [List.eraseIdx_eq_take_drop_succ,
    insertIdx_eq_take_cons_drop _ _ t
      (by simp only [List.length_append, List.length_take, List.length_drop]; omega)]
  rw [List.take_append_eq_append_take, List.drop_append_eq_append_drop]
  rw [List.take_take]
  have h1 : t ⊓ i = i := by omega
  have h2 : t - (items.take i).length = t - i := by
    simp only [List.length_take]
    omega
  rw [h1, h2]
  have hnil : List.drop t (List.take i items) = [] :=
    List.drop_eq_nil_of_le (by simp only [List.length_take]; omega)
  rw [hnil, List.nil_append, List.drop_drop]
  have h3 : i + 1 + (t - i) = t + 1 := by omega
  rw [h3]

/-- The right-shift branch of `move` (`index > target`, after the
`before` adjustment `t`) equals remove-then-reinsert at `t`. -/
theorem rotate_right_eq (items : List α) (i t : Nat) (d : α)
    (hti : t ≤ i) (hi : i < items.length) :
    (goCopyWithin items (t + 1) t (i - t)).set t d
      = (items.eraseIdx i).insertIdx t d := by
  rw [goCopyWithin_eq items (t + 1) t (i - t) (by omega) (by omega)]
  have hdst : t + 1 + (i - t) = i + 1 := by omega
  rw [hdst, List.take_succ, List.getElem?_eq_getElem (by omega : t < items.length)]
  simp only [Option.toList_some]
  rw [List.append_assoc, List.singleton_append]
  rw [set_append_cons_of_length _ _ _ _ t (by simp only [List.length_take]; omega)]
  rw [List.eraseIdx_eq_take_drop_succ,
    insertIdx_eq_take_cons_drop _ _ t
      (by simp only [List.length_append, List.length_take, List.length_drop]; omega)]
  rw [List.take_append_eq_append_take, List.drop_append_eq_append_drop]
  rw [List.take_take]
  have h1 : t ⊓ i = t := by omega
  have h2 : t - (items.take i).length = 0 := by
    simp only [List.length_take]
    omega
  rw [h1, h2, List.take_zero, List.append_nil, List.drop_zero, List.drop_take]

/-- Main characterization: on a collection with pairwise-distinct ids,
moving the element at `i` relative to the element at `j ≠ i` computes
exactly the remove-then-reinsert rotation of §4.1. -/
theorem moveGo_eq_specMove [Inhabited α] (key : α → String) (items : List α)
    (i j : Nat) (hi : i < items.length) (hj : j < items.length) (hij : i ≠ j)
    (hnd : (items.map key).Nodup) (before : Bool) :
    moveGo key items (key items[i]) (key items[j]) before
      = .ok (specMove items i j before) := by
  simp only [moveGo, findIndexes_eq key items i j hi hj hij hnd _ _ rfl rfl]
  rw [if_neg (by omega)]
  simp only [Int.toNat_natCast, specMove]
  rcases Nat.lt_or_ge i j with hlt | hge
  · simp only [if_pos hlt]
    cases before with
    | false => exact congrArg Except.ok (rotate_left_eq items i j _ (Nat.le_of_lt hlt) hj)
    | true => exact congrArg Except.ok (rotate_left_eq items i (j - 1) _ (by omega) (by omega))
  · have hgt : j < i := by omega
    simp only [if_neg (by omega : ¬ i < j), if_pos hgt]
    cases before with
    | false => exact congrArg Except.ok (rotate_right_eq items i (j + 1) _ (by omega) hi)
    | true => exact congrArg Except.ok (rotate_right_eq items i j _ (Nat.le_of_lt hgt) hi)

/-- When the moved id and the reference id coincide, the loop stops at
the first occurrence with `index = target`. -/
theorem findAux_self (key : α → String) (id : String) :
    ∀ (xs : List α) (k : Nat), (∃ y ∈ xs, key y = id) →
      ∃ i, ∃ hi : i < xs.length, key xs[i] = id ∧
        findIndexesAux key id id xs k (-1, -1)
          = (((k + i : Nat) : Int), ((k + i : Nat) : Int)) := by
  intro xs
  induction xs with
  | nil => rintro k ⟨y, hy, -⟩; cases hy
  | cons x xs ih =>
    intro k hmem
    by_cases hx : key x = id
    · refine ⟨0, by simp, hx, ?_⟩
      simp only [findIndexesAux, if_pos hx]
      rw [if_pos ⟨by omega, by omega⟩]
      simp
    · obtain ⟨y, hy, hky⟩ := hmem
      have hyxs : y ∈ xs := by
        rcases List.mem_cons.mp hy with h | h
        · exact absurd (h ▸ hky) hx
        · exact h
      obtain ⟨i, hi, hki, heq⟩ := ih (k + 1) ⟨y, hyxs, hky⟩
      refine ⟨i + 1, by simpa using hi, by simpa using hki, ?_⟩
      simp only [findIndexesAux, if_neg hx]
      rw [if_neg (by simp)]
      rw [heq]
      have : k + 1 + i = k + (i + 1) := by omega
      rw [this]

/-- Self-move (`MoveBefore(id, id)` / `MoveAfter(id, id)`) is a no-op. -/
theorem moveGo_self [Inhabited α] (key : α → String) (items : List α) (id : String)
    (hmem : ∃ y ∈ items, key y = id) (before : Bool) :
    moveGo key items id id before = .ok items := by
  obtain ⟨i, hi, hk, heq⟩ := findAux_self key id items 0 hmem
  simp only [Nat.zero_add] at heq
  simp only [moveGo, findIndexes, heq]
  rw [if_neg (by omega)]
  simp only [Int.toNat_natCast]
  rw [if_neg (by omega), if_neg (by omega)]
  rw [List.getD_eq_getElem items _ hi, set_getElem_self_eq items i hi]

/-- If `id` never occurs, the loop reports `index = -1`. -/
theorem findAux_not_found_left (key : α → String) (id tgt : String) :
    ∀ (xs : List α) (k : Nat) (st : Int × Int), st.1 = -1 →
      (∀ y ∈ xs, key y ≠ id) →
      (findIndexesAux key id tgt xs k st).1 = -1 := by
  intro xs
  induction xs with
  | nil => intro k st hst _; exact hst
  | cons x xs ih =>
    intro k st hst hall
    have hx : key x ≠ id := hall x (by simp)
    simp only [findIndexesAux, if_neg hx, hst]
    rw [if_neg (by simp)]
    exact ih (k + 1) _ rfl (fun y hy => hall y (by simp [hy]))

/-- If `targetID` never occurs, the loop reports `target = -1`. -/
theorem findAux_not_found_right (key : α → String) (id tgt : String) :
    ∀ (xs : List α) (k : Nat) (st : Int × Int), st.2 = -1 →
      (∀ y ∈ xs, key y ≠ tgt) →
      (findIndexesAux key id tgt xs k st).2 = -1 := by
  intro xs
  induction xs with
  | nil => intro k st hst _; exact hst
  | cons x xs ih =>
    intro k st hst hall
    have hx : key x ≠ tgt := hall x (by simp)
    simp only [findIndexesAux, if_neg hx, hst]
    rw [if_neg (by simp)]
    exact ih (k + 1) _ rfl (fun y hy => hall y (by simp [hy]))

/-- `move` fails with `NoSuchItem` when either id is absent. -/
theorem moveGo_not_found [Inhabited α] (key : α → String) (items : List α)
    (id tgt : String) (before : Bool)
    (h : (∀ y ∈ items, key y ≠ id) ∨ (∀ y ∈ items, key y ≠ tgt)) :
    moveGo key items id tgt before = .error .noSuchItem := by
  simp only [moveGo, findIndexes]
  rcases h with h | h
  · rw [if_pos (Or.inl (findAux_not_found_left key id tgt items 0 (-1, -1) rfl h))]
  · rw [if_pos (Or.inr (findAux_not_found_right key id tgt items 0 (-1, -1) rfl h))]

theorem specMove_eq_insertIdx [Inhabited α] (items : List α) (i j : Nat) (before : Bool) :
    specMove items i j before
      = (items.eraseIdx i).insertIdx (moveDest i j before) (items.getD i default) := rfl

theorem moveDest_bounds (i j : Nat) (before : Bool) (len : Nat)
    (hi : i < len) (hj : j < len) (hij : i ≠ j) :
    moveDest i j before < len ∧ (¬ i < j → moveDest i j before ≤ i) ∧
      (i < j → i ≤ moveDest i j before) := by
  unfold moveDest
  split_ifs <;> omega

theorem eraseIdx_length_of_lt (items : List α) (i : Nat) (hi : i < items.length) :
    (items.eraseIdx i).length = items.length - 1 := by
  rw [List.length_eraseIdx, if_pos hi]

theorem specMove_length [Inhabited α] (items : List α) (i j : Nat)
    (hi : i < items.length) (hj : j < items.length) (hij : i ≠ j) (before : Bool) :
    (specMove items i j before).length = items.length := by
  have hb := moveDest_bounds i j before items.length hi hj hij
  rw [specMove_eq_insertIdx,
    List.length_insertIdx _ _ (by rw [eraseIdx_length_of_lt items i hi]; omega),
    eraseIdx_length_of_lt items i hi]
  omega

theorem list_getElem_idx_congr (l : List α) (a b : Nat) (hab : a = b)
    (ha : a < l.length) (hb : b < l.length) : l[a] = l[b] := by
  subst hab
  rfl

/-- The moved element lands exactly in the destination slot. -/
theorem specMove_moved [Inhabited α] (items : List α) (i j : Nat)
    (hi : i < items.length) (hj : j < items.length) (hij : i ≠ j) (before : Bool) :
    (specMove items i j before)[moveDest i j before]? = some items[i] := by
  have hb := moveDest_bounds i j before items.length hi hj hij
  have htE : moveDest i j before ≤ (items.eraseIdx i).length := by
    rw [eraseIdx_length_of_lt items i hi]
    unfold moveDest
    split_ifs <;> omega
  rw [specMove_eq_insertIdx,
    List.getElem?_eq_getElem (by rw [List.length_insertIdx _ _ htE]; omega),
    List.getElem_insertIdx_self _ _ _ htE, List.getD_eq_getElem items _ hi]

/-- `MoveBefore`: the reference element ends up immediately after the
moved one. -/
theorem specMove_adj_before [Inhabited α] (items : List α) (i j : Nat)
    (hi : i < items.length) (hj : j < items.length) (hij : i ≠ j) :
    (specMove items i j true)[moveDest i j true + 1]? = some items[j] := by
  have htE : moveDest i j true < (items.eraseIdx i).length := by
    rw [eraseIdx_length_of_lt items i hi]
    unfold moveDest
    rw [if_pos rfl]
    split_ifs <;> omega
  have hr : moveDest i j true + 1
      < (List.insertIdx (moveDest i j true) (items.getD i default) (items.eraseIdx i)).length := by
    rw [List.length_insertIdx _ _ (Nat.le_of_lt htE)]
    omega
  rw [specMove_eq_insertIdx, List.getElem?_eq_getElem hr]
  have h1 := List.getElem_insertIdx_add_succ (items.eraseIdx i) (items.getD i default)
    (moveDest i j true) 0 (by omega)
  simp only [Nat.add_zero] at h1
  rw [h1]
  congr 1
  rcases Nat.lt_or_ge i j with h | h
  · have ht : moveDest i j true = j - 1 := by
      unfold moveDest
      rw [if_pos rfl, if_pos h]
    rw [List.getElem_eraseIdx_of_ge items i _ (by omega) (by omega)]
    exact list_getElem_idx_congr items _ _ (by omega) (by omega) (by omega)
  · have ht : moveDest i j true = j := by
      unfold moveDest
      rw [if_pos rfl, if_neg (by omega)]
    rw [List.getElem_eraseIdx_of_lt items i _ (by omega) (by omega)]
    exact list_getElem_idx_congr items _ _ (by omega) (by omega) (by omega)

/-- `MoveAfter`: the reference element ends up immediately before the
moved one. -/
theorem specMove_adj_after [Inhabited α] (items : List α) (i j : Nat)
    (hi : i < items.length) (hj : j < items.length) (hij : i ≠ j) :
    (specMove items i j false)[moveDest i j false - 1]? = some items[j] := by
  have hone : 1 ≤ moveDest i j false := by
    unfold moveDest
    rw [if_neg Bool.false_ne_true]
    split_ifs <;> omega
  have htE : moveDest i j false ≤ (items.eraseIdx i).length := by
    rw [eraseIdx_length_of_lt items i hi]
    unfold moveDest
    rw [if_neg Bool.false_ne_true]
    split_ifs <;> omega
  have hr : moveDest i j false - 1
      < (List.insertIdx (moveDest i j false) (items.getD i default) (items.eraseIdx i)).length := by
    rw [List.length_insertIdx _ _ htE]
    omega
  rw [specMove_eq_insertIdx, List.getElem?_eq_getElem hr]
  congr 1
  rw [List.getElem_insertIdx_of_lt _ _ _ _ (by omega) (by
    rw [eraseIdx_length_of_lt items i hi]
    unfold moveDest
    rw [if_neg Bool.false_ne_true]
    split_ifs <;> omega)]
  rcases Nat.lt_or_ge i j with h | h
  · have ht : moveDest i j false = j := by
      unfold moveDest
      rw [if_neg Bool.false_ne_true, if_pos h]
    rw [List.getElem_eraseIdx_of_ge items i _ (by omega) (by omega)]
    exact list_getElem_idx_congr items _ _ (by omega) (by omega) (by omega)
  · have ht : moveDest i j false = j + 1 := by
      unfold moveDest
      rw [if_neg Bool.false_ne_true, if_neg (by omega)]
    rw [List.getElem_eraseIdx_of_lt items i _ (by omega) (by omega)]
    exact list_getElem_idx_congr items _ _ (by omega) (by omega) (by omega)

/-- Every element outside the rotated sub-range keeps its position. -/
theorem specMove_frame [Inhabited α] (items : List α) (i j : Nat)
    (hi : i < items.length) (hj : j < items.length) (hij : i ≠ j) (before : Bool)
    (k : Nat) (hk : k < items.length)
    (hout : k < min i (moveDest i j before) ∨ max i (moveDest i j before) < k) :
    (specMove items i j before)[k]? = items[k]? := by
  have hb := moveDest_bounds i j before items.length hi hj hij
  have htE : moveDest i j before ≤ (items.eraseIdx i).length := by
    rw [eraseIdx_length_of_lt items i hi]
    unfold moveDest
    split_ifs <;> omega
  rcases hout with hlo | hhi
  · have hr : k < (List.insertIdx (moveDest i j before) (items.getD i default)
        (items.eraseIdx i)).length := by
      rw [List.length_insertIdx _ _ htE, eraseIdx_length_of_lt items i hi]
      omega
    rw [specMove_eq_insertIdx, List.getElem?_eq_getElem hr, List.getElem?_eq_getElem hk]
    rw [List.getElem_insertIdx_of_lt _ _ _ _ (by omega)
      (by rw [eraseIdx_length_of_lt items i hi]; omega)]
    rw [List.getElem_eraseIdx_of_lt items i _ (by omega) (by omega)]
  · obtain ⟨m, rfl⟩ : ∃ m, k = moveDest i j before + m + 1 :=
      ⟨k - moveDest i j before - 1, by omega⟩
    have hr : moveDest i j before + m + 1
        < (List.insertIdx (moveDest i j before) (items.getD i default)
          (items.eraseIdx i)).length := by
      rw [List.length_insertIdx _ _ htE, eraseIdx_length_of_lt items i hi]
      omega
    rw [specMove_eq_insertIdx, List.getElem?_eq_getElem hr, List.getElem?_eq_getElem hk]
    rw [List.getElem_insertIdx_add_succ _ _ _ m
      (by rw [eraseIdx_length_of_lt items i hi]; omega)]
    rw [List.getElem_eraseIdx_of_ge items i _
      (by rw [eraseIdx_length_of_lt items i hi]; omega) (by omega)]

/-- Elements strictly between the two positions shift by one toward the
vacated slot: left when the moved element comes from the left of the
destination, right when it comes from the right. -/
theorem specMove_shift [Inhabited α] (items : List α) (i j : Nat)
    (hi : i < items.length) (hj : j < items.length) (hij : i ≠ j) (before : Bool)
    (k : Nat) :
    (i ≤ k → k < moveDest i j before → (specMove items i j before)[k]? = items[k + 1]?) ∧
    (moveDest i j before < k → k ≤ i → (specMove items i j before)[k]? = items[k - 1]?) := by
  have hb := moveDest_bounds i j before items.length hi hj hij
  have htE : moveDest i j before ≤ (items.eraseIdx i).length := by
    rw [eraseIdx_length_of_lt items i hi]
    unfold moveDest
    split_ifs <;> omega
  constructor
  · intro h1 h2
    have hr : k < (List.insertIdx (moveDest i j before) (items.getD i default)
        (items.eraseIdx i)).length := by
      rw [List.length_insertIdx _ _ htE, eraseIdx_length_of_lt items i hi]
      omega
    rw [specMove_eq_insertIdx, List.getElem?_eq_getElem hr,
      List.getElem?_eq_getElem (by omega : k + 1 < items.length)]
    rw [List.getElem_insertIdx_of_lt _ _ _ _ (by omega)
      (by rw [eraseIdx_length_of_lt items i hi]; omega)]
    rw [List.getElem_eraseIdx_of_ge items i _ (by omega) (by omega)]
  · intro h1 h2
    obtain ⟨m, rfl⟩ : ∃ m, k = moveDest i j before + m + 1 :=
      ⟨k - moveDest i j before - 1, by omega⟩
    have hr : moveDest i j before + m + 1
        < (List.insertIdx (moveDest i j before) (items.getD i default)
          (items.eraseIdx i)).length := by
      rw [List.length_insertIdx _ _ htE, eraseIdx_length_of_lt items i hi]
      omega
    rw [specMove_eq_insertIdx, List.getElem?_eq_getElem hr,
      List.getElem?_eq_getElem (by omega : moveDest i j before + m + 1 - 1 < items.length)]
    rw [List.getElem_insertIdx_add_succ _ _ _ m
      (by rw [eraseIdx_length_of_lt items i hi]; omega)]
    have hmi : moveDest i j before + m < i := by omega
    have hmE : moveDest i j before + m < (items.eraseIdx i).length := by
      rw [eraseIdx_length_of_lt items i hi]
      omega
    rw [List.getElem_eraseIdx_of_lt items i _ hmE hmi]
    exact congrArg some (list_getElem_idx_congr items (moveDest i j before + m)
      (moveDest i j before + m + 1 - 1) (by omega) (by omega) (by omega))

/-! ### Codec round-trip lemmas -/

theorem safeId_no_quote (s : String) (h : safeId s = true) : '"' ∉ s.data := by
  intro hm
  have hall := List.all_eq_true.mp h _ hm
  simp at hall

theorem parseStringBody_append (s : List Char) (r : List Char) (h : '"' ∉ s) :
    parseStringBody (s ++ '"' :: r) = some (s, r) := by
  induction s with
  | nil => simp [parseStringBody]
  | cons c cs ih =>
    have hc : c ≠ '"' := fun he => h (he ▸ List.mem_cons_self c cs)
    simp only [List.cons_append, parseStringBody, if_neg hc, List.append_eq]
    rw [ih (fun hm => h (List.mem_cons_of_mem c hm))]

theorem encodeItems_cons_head (a : String) (L2 : List String) :
    ∃ t, encodeItems (a :: L2) = '"' :: t := by
  cases L2 <;> exact ⟨_, rfl⟩

theorem encodeItems_length (L : List String) : L.length ≤ (encodeItems L).length := by
  induction L with
  | nil => simp [encodeItems]
  | cons a L ih =>
    cases L with
    | nil => simp [encodeItems, encodeString]
    | cons b L2 =>
      simp only [encodeItems, encodeString, List.length_cons, List.length_append] at *
      omega

theorem parseItems_encode (L : List String) :
    ∀ (rest : List Char) (fuel : Nat), L ≠ [] → (∀ s ∈ L, safeId s = true) →
      L.length ≤ fuel →
      parseItems fuel (encodeItems L ++ ']' :: rest) = some (L, rest) := by
  induction L with
  | nil => intro rest fuel h; cases h rfl
  | cons a L ih =>
    intro rest fuel _ hsafe hfuel
    have hf1 : 1 ≤ fuel := le_trans (by simp) hfuel
    obtain ⟨f, rfl⟩ : ∃ f, fuel = f + 1 := ⟨fuel - 1, by omega⟩
    cases L with
    | nil =>
      have hform : encodeItems [a] ++ ']' :: rest
          = '"' :: (a.data ++ '"' :: (']' :: rest)) := by
        simp [encodeItems, encodeString]
      rw [hform]
      simp only [parseItems]
      rw [parseStringBody_append a.data (']' :: rest)
        (safeId_no_quote a (hsafe a (by simp)))]
      rfl
    | cons b L2 =>
      have hform : encodeItems (a :: b :: L2) ++ ']' :: rest
          = '"' :: (a.data ++ '"' :: (',' :: (encodeItems (b :: L2) ++ ']' :: rest))) := by
        simp [encodeItems, encodeString]
      rw [hform]
      simp only [parseItems]
      rw [parseStringBody_append a.data _
        (safeId_no_quote a (hsafe a (by simp)))]
      have hfuel2 : (b :: L2).length ≤ f := by
        simp only [List.length_cons] at hfuel ⊢
        omega
      change (match parseItems f (encodeItems (b :: L2) ++ ']' :: rest) with
        | none => none
        | some (l, r2) => some (String.mk a.data :: l, r2)) = some (a :: b :: L2, rest)
      rw [ih rest f (by simp) (fun s hs => hsafe s (by simp [hs])) hfuel2]

/-- Decoding a freshly encoded document (with any trailing bytes left
over in the file) recovers the list and leaves the leftovers, newline
included, unconsumed. -/
theorem decode_encode (L : List String) (junk : List Char)
    (hsafe : ∀ s ∈ L, safeId s = true) :
    decodeIndexDoc (encodeIndex L ++ junk) = .ok L ('\n' :: junk) := by
  cases L with
  | nil => rfl
  | cons a L2 =>
    obtain ⟨t, ht⟩ := encodeItems_cons_head a L2
    have hform : encodeIndex (a :: L2) ++ junk
        = '[' :: '"' :: (t ++ (']' :: ('\n' :: junk))) := by
      simp [encodeIndex, ht]
    rw [hform]
    have hcs : ('"' : Char) :: (t ++ (']' :: ('\n' :: junk)))
        = encodeItems (a :: L2) ++ ']' :: ('\n' :: junk) := by
      rw [ht, List.cons_append]
    change (match parseItems (('"' :: (t ++ (']' :: ('\n' :: junk)))).length)
        ('"' :: (t ++ (']' :: ('\n' :: junk)))) with
      | some (l, rest) => DecodeResult.ok l rest
      | none => DecodeResult.err) = DecodeResult.ok (a :: L2) ('\n' :: junk)
    rw [hcs]
    rw [parseItems_encode (a :: L2) ('\n' :: junk) _ (by simp) hsafe (by
      simp only [List.length_append, List.length_cons]
      have := encodeItems_length (a :: L2)
      simp only [List.length_cons] at this
      omega)]

theorem encodeItems_append_length (L : List String) (id : String) :
    (encodeItems L).length ≤ (encodeItems (L ++ [id])).length := by
  induction L with
  | nil => simp [encodeItems]
  | cons a L ih =>
    cases L with
    | nil =>
      simp only [List.nil_append, List.cons_append, encodeItems, encodeString,
        List.length_cons, List.length_append]
      omega
    | cons b L2 =>
      simp only [List.cons_append, encodeItems, encodeString, List.length_cons,
        List.length_append, List.append_eq] at *
      omega

/-- `Create` rewrites the document with one more id and never truncates:
the new encoding is at least as long as the old one, so nothing of the
old document survives. -/
theorem overwrite_encodeIndex_append (L : List String) (id : String) :
    overwrite (encodeIndex L) (encodeIndex (L ++ [id])) = encodeIndex (L ++ [id]) := by
  unfold overwrite
  rw [List.drop_eq_nil_of_le, List.append_nil]
  simp only [encodeIndex, List.length_cons, List.length_append]
  have := encodeItems_append_length L id
  omega

/-- Writing at offset 0 and truncating at the end of the write leaves
exactly the written bytes. -/
theorem truncateAt_overwrite (old new : List Char) :
    truncateAt (overwrite old new) new.length = new := by
  unfold truncateAt overwrite
  rw [List.take_append_eq_append_take, List.take_length, Nat.sub_self,
    List.take_zero, List.append_nil]

/-! ### Memory-store helper lemmas -/

theorem memUpdateList_spec (it : Item) :
    ∀ (l : List CItem) (i : Nat) (hi : i < l.length),
      l[i].item.id = it.id →
      (∀ m, m < i → ∀ hm : m < l.length, l[m].item.id ≠ it.id) →
      memUpdateList it l = some (l.set i ⟨it, l[i].image⟩) := by
  intro l
  induction l with
  | nil => intro i hi; exact absurd hi (by simp)
  | cons c cs ih =>
    intro i hi hmatch hfirst
    cases i with
    | zero =>
      simp only [List.getElem_cons_zero] at hmatch
      simp only [memUpdateList, if_pos (beq_iff_eq.mpr hmatch)]
      rfl
    | succ m =>
      have hc : ¬ (c.item.id == it.id) = true := by
        simpa using hfirst 0 (Nat.succ_pos m) (by simp)
      simp only [memUpdateList, if_neg hc]
      rw [ih m (by simpa using hi) (by simpa using hmatch)
        (fun m2 hm2 hm2l => by
          simpa using hfirst (m2 + 1) (by omega) (by simpa using hm2l))]
      rfl

theorem memUpdateList_not_found (it : Item) (l : List CItem)
    (h : ∀ c ∈ l, c.item.id ≠ it.id) : memUpdateList it l = none := by
  induction l with
  | nil => rfl
  | cons c cs ih =>
    have hc : ¬ (c.item.id == it.id) = true :=
      fun hbeq => h c (List.mem_cons_self c cs) (beq_iff_eq.mp hbeq)
    simp only [memUpdateList, if_neg hc]
    rw [ih (fun x hx => h x (by simp [hx]))]
    rfl

theorem find_after_filter (l : List CItem) (id : String) :
    (l.filter (fun c => c.item.id != id)).find? (fun c => c.item.id == id) = none := by
  rw [List.find?_eq_none]
  intro x hx
  have hne := (List.mem_filter.mp hx).2
  simp only [bne_iff_ne, ne_eq] at hne
  simpa using hne

theorem filter_length_ne (l : List α) (p : α → Bool) (x : α) (hx : x ∈ l)
    (hpx : p x = false) : (l.filter p).length ≠ l.length := by
  intro he
  have heq := (List.filter_sublist (p := p) l).eq_of_length he
  have hmem : x ∈ l.filter p := by rw [heq]; exact hx
  have := (List.mem_filter.mp hmem).2
  simp [hpx] at this

theorem specMove_perm [Inhabited α] (items : List α) (i j : Nat)
    (hi : i < items.length) (hj : j < items.length) (hij : i ≠ j) (before : Bool) :
    (specMove items i j before).Perm items := by
  have htE : moveDest i j before ≤ (items.eraseIdx i).length := by
    rw [eraseIdx_length_of_lt items i hi]
    unfold moveDest
    split_ifs <;> omega
  rw [specMove_eq_insertIdx]
  refine (List.perm_insertIdx _ _ htE).trans ?_
  rw [List.getD_eq_getElem items _ hi, List.eraseIdx_eq_take_drop_succ]
  have hsplit : items = items.take i ++ items[i] :: items.drop (i + 1) := by
    rw [← List.drop_eq_getElem_cons hi, List.take_append_drop]
  conv_rhs => rw [hsplit]
  exact List.perm_middle.symm

theorem specMove_filter [Inhabited α] (items : List α) (i j : Nat)
    (hi : i < items.length) (hj : j < items.length) (hij : i ≠ j) (before : Bool)
    (p : α → Bool) (hp : p items[i] = false) :
    (specMove items i j before).filter p = items.filter p := by
  have htE : moveDest i j before ≤ (items.eraseIdx i).length := by
    rw [eraseIdx_length_of_lt items i hi]
    unfold moveDest
    split_ifs <;> omega
  have hsplit : items = items.take i ++ items[i] :: items.drop (i + 1) := by
    rw [← List.drop_eq_getElem_cons hi, List.take_append_drop]
  rw [specMove_eq_insertIdx, List.getD_eq_getElem items _ hi,
    insertIdx_eq_take_cons_drop _ _ _ htE, List.filter_append, List.filter_cons,
    if_neg (by simp [hp]), ← List.filter_append, List.take_append_drop,
    List.eraseIdx_eq_take_drop_succ]
  conv_rhs => rw [hsplit]
  rw [List.filter_append, List.filter_append, List.filter_cons, if_neg (by simp [hp])]

/-! ## Claim theorems -/

/-- C1: on a collection of distinct ids containing the moved id at
position `i` and the reference id at position `j ≠ i`,
`MoveBefore`/`MoveAfter` (`before` true/false) produce exactly the
rotation of spec §4.1: the result equals `specMove` (remove the moved
element, reinsert at the destination slot), the moved element lands in
the destination slot with the reference element immediately after
(before-move) resp. immediately before (after-move) it, the elements
strictly between the two positions shift by one toward the vacated
slot, and every element outside that sub-range keeps its position. -/
theorem move_rotation_correct [Inhabited α] (key : α → String) (items : List α)
    (i j : Nat) (hi : i < items.length) (hj : j < items.length) (hij : i ≠ j)
    (hnd : (items.map key).Nodup) (before : Bool) :
    moveGo key items (key items[i]) (key items[j]) before
        = .ok (specMove items i j before)
      ∧ (specMove items i j before).length = items.length
      ∧ (specMove items i j before)[moveDest i j before]? = some items[i]
      ∧ (specMove items i j true)[moveDest i j true + 1]? = some items[j]
      ∧ (specMove items i j false)[moveDest i j false - 1]? = some items[j]
      ∧ (∀ k, k < items.length →
          (k < min i (moveDest i j before) ∨ max i (moveDest i j before) < k) →
          (specMove items i j before)[k]? = items[k]?)
      ∧ (∀ k, i ≤ k → k < moveDest i j before →
          (specMove items i j before)[k]? = items[k + 1]?)
      ∧ (∀ k, moveDest i j before < k → k ≤ i →
          (specMove items i j before)[k]? = items[k - 1]?) :=
  ⟨moveGo_eq_specMove key items i j hi hj hij hnd before,
   specMove_length items i j hi hj hij before,
   specMove_moved items i j hi hj hij before,
   specMove_adj_before items i j hi hj hij,
   specMove_adj_after items i j hi hj hij,
   fun k hk hout => specMove_frame items i j hi hj hij before k hk hout,
   fun k h1 h2 => (specMove_shift items i j hi hj hij before k).1 h1 h2,
   fun k h1 h2 => (specMove_shift items i j hi hj hij before k).2 h1 h2⟩

theorem move_rotation_correct_witness :
    moveGo (fun s => s) ["a", "b", "c"] "c" "a" true
      = .ok (specMove ["a", "b", "c"] 2 0 true) :=
  (move_rotation_correct (fun s => s) ["a", "b", "c"] 2 0
    (by decide) (by decide) (by decide) (by decide) true).1

/-- C2: every successful `MoveBefore`/`MoveAfter` on a collection of
distinct ids yields a permutation of the previous sequence (no
duplication, no loss), and removing the moved element from old and new
sequences leaves identical lists — the relative order of every pair of
untouched elements is preserved. -/
theorem move_permutation_frame [Inhabited α] (key : α → String) (items : List α)
    (i j : Nat) (hi : i < items.length) (hj : j < items.length)
    (hnd : (items.map key).Nodup) (before : Bool) (r : List α)
    (hr : moveGo key items (key items[i]) (key items[j]) before = .ok r) :
    r.Perm items
      ∧ r.filter (fun x => key x != key items[i])
          = items.filter (fun x => key x != key items[i]) := by
  by_cases hij : i = j
  · subst hij
    rw [moveGo_self key items _ ⟨items[i], List.getElem_mem hi, rfl⟩ before] at hr
    have hre := Except.ok.inj hr
    subst hre
    exact ⟨List.Perm.refl _, rfl⟩
  · rw [moveGo_eq_specMove key items i j hi hj hij hnd before] at hr
    have hre := Except.ok.inj hr
    subst hre
    exact ⟨specMove_perm items i j hi hj hij before,
      specMove_filter items i j hi hj hij before _ (by simp)⟩

theorem move_permutation_frame_witness :
    (["b", "c", "a"] : List String).Perm ["a", "b", "c"]
      ∧ ["b", "c", "a"].filter (fun x => x != "a")
          = ["a", "b", "c"].filter (fun x => x != "a") :=
  move_permutation_frame (fun s => s) ["a", "b", "c"] 0 2
    (by decide) (by decide) (by decide) false ["b", "c", "a"] rfl

/-- C7: moving an item relative to itself succeeds and leaves the
sequence exactly unchanged — for the shared algorithm, the in-memory
store, and the file store (whose index document is byte-identical
afterwards). -/
theorem self_move_noop [Inhabited α] (key : α → String) (id : String) :
    (∀ items : List α, (∃ y ∈ items, key y = id) → ∀ b,
        moveGo key items id id b = .ok items)
    ∧ (∀ l : List CItem, (∃ c ∈ l, c.item.id = id) → ∀ b,
        memMove ⟨some l⟩ id id b = (⟨some l⟩, none))
    ∧ (∀ (L : List String) (blobs : List (String × List Nat)) (b : Bool),
        (∀ s ∈ L, safeId s = true) → id ∈ L →
        fileMove ⟨some (encodeIndex L), blobs⟩ id id b
          = (⟨some (encodeIndex L), blobs⟩, none)) := by
  refine ⟨fun items hm b => moveGo_self key items id hm b, ?_, ?_⟩
  · intro l hm b
    unfold memMove
    rw [show (⟨some l⟩ : MemStore).items.getD [] = l from rfl]
    rw [moveGo_self (fun c => c.item.id) l id hm b]
  · intro L blobs b hsafe hmemL
    have hdec : decodeIndexDoc (encodeIndex L) = .ok L ['\n'] := by
      have h := decode_encode L [] hsafe
      rwa [List.append_nil] at h
    obtain ⟨y, hy, hky⟩ : ∃ y ∈ L, (fun s => s) y = id := ⟨id, hmemL, rfl⟩
    unfold fileMove
    rw [show (⟨some (encodeIndex L), blobs⟩ : FS).index = some (encodeIndex L) from rfl]
    simp only [hdec]
    rw [moveGo_self (fun s => s) L id ⟨y, hy, hky⟩ b]
    simp only [truncateAt_overwrite]

theorem self_move_noop_witness :
    moveGo (fun s => s) ["a", "b"] "b" "b" true = .ok ["a", "b"]
      ∧ memMove ⟨some [⟨⟨"b", 0, 0, 0⟩, []⟩]⟩ "b" "b" false
          = (⟨some [⟨⟨"b", 0, 0, 0⟩, []⟩]⟩, none)
      ∧ fileMove ⟨some (encodeIndex ["a", "b"]), []⟩ "b" "b" true
          = (⟨some (encodeIndex ["a", "b"]), []⟩, none) :=
  ⟨(self_move_noop (fun s : String => s) "b").1 ["a", "b"] ⟨"b", by decide, rfl⟩ true,
   (self_move_noop (fun s : String => s) "b").2.1 [⟨⟨"b", 0, 0, 0⟩, []⟩]
     ⟨⟨⟨"b", 0, 0, 0⟩, []⟩, by decide, rfl⟩ false,
   (self_move_noop (fun s : String => s) "b").2.2 ["a", "b"] [] true
     (by decide) (by decide)⟩

theorem contains_false_of_not_mem (l : List String) (a : String) (h : a ∉ l) :
    l.contains a = false := by
  by_contra hc
  rw [Bool.not_eq_false] at hc
  obtain ⟨b, hb, hbeq⟩ := List.contains_iff_exists_mem_beq.mp hc
  rw [beq_iff_eq.mp hbeq] at h
  exact h hb

/-- C3: any operation referencing a nonexistent id — `Delete(id)` with
`id` absent, and `MoveBefore`/`MoveAfter` with the moved or the
reference id absent — returns `NoSuchItem` and leaves the collection
state (sequence and images) exactly as it was, on both backends; a
durable store with no index file behaves the same way. -/
theorem not_found_leaves_state (id tgt : String) :
    (∀ (s : MemStore) (b : Bool),
        ((∀ c ∈ s.items.getD [], c.item.id ≠ id) ∨
          (∀ c ∈ s.items.getD [], c.item.id ≠ tgt)) →
        memMove s id tgt b = (s, some .noSuchItem))
    ∧ (∀ s : MemStore, (∀ c ∈ s.items.getD [], c.item.id ≠ id) →
        memDelete s id = (s, some .noSuchItem))
    ∧ (∀ (fs : FS) (L : List String) (b : Bool),
        fs.index = some (encodeIndex L) → (∀ x ∈ L, safeId x = true) →
        (id ∉ L ∨ tgt ∉ L) →
        fileMove fs id tgt b = (fs, some .noSuchItem))
    ∧ (∀ (fs : FS) (L : List String),
        fs.index = some (encodeIndex L) → (∀ x ∈ L, safeId x = true) →
        id ∉ L →
        fileDelete fs id = (fs, some .noSuchItem))
    ∧ (∀ (fs : FS) (b : Bool), fs.index = none →
        fileMove fs id tgt b = (fs, some .noSuchItem)
          ∧ fileDelete fs id = (fs, some .noSuchItem)) := by
  refine ⟨?_, ?_, ?_, ?_, ?_⟩
  · intro s b habs
    unfold memMove
    rw [moveGo_not_found (fun c : CItem => c.item.id) (s.items.getD []) id tgt b habs]
  · intro s habs
    unfold memDelete
    rw [List.filter_eq_self.mpr (fun c hc => by simpa using habs c hc)]
    rw [if_pos rfl]
  · intro fs L b hix hsafe habs
    have hdec : decodeIndexDoc (encodeIndex L) = .ok L ['\n'] := by
      have h := decode_encode L [] hsafe
      rwa [List.append_nil] at h
    unfold fileMove
    rw [hix]
    simp only [hdec]
    rw [moveGo_not_found (fun s => s) L id tgt b
      (habs.imp (fun h y hy he => h (he ▸ hy)) (fun h y hy he => h (he ▸ hy)))]
  · intro fs L hix hsafe habs
    have hdec : decodeIndexDoc (encodeIndex L) = .ok L ['\n'] := by
      have h := decode_encode L [] hsafe
      rwa [List.append_nil] at h
    unfold fileDelete
    rw [hix]
    simp only [hdec]
    rw [List.filter_eq_self.mpr (fun x hx => by
      simp only [bne_iff_ne, ne_eq]
      exact fun he => habs (he ▸ hx))]
    rw [if_pos rfl]
  · intro fs b hnone
    unfold fileMove fileDelete
    rw [hnone]
    exact ⟨rfl, rfl⟩

theorem not_found_leaves_state_witness :
    memMove ⟨some [⟨⟨"a", 0, 0, 0⟩, []⟩]⟩ "a" "z" true
        = (⟨some [⟨⟨"a", 0, 0, 0⟩, []⟩]⟩, some .noSuchItem)
      ∧ memDelete ⟨some [⟨⟨"a", 0, 0, 0⟩, []⟩]⟩ "z"
        = (⟨some [⟨⟨"a", 0, 0, 0⟩, []⟩]⟩, some .noSuchItem)
      ∧ fileDelete ⟨some (encodeIndex ["a"]), [("a", [7])]⟩ "z"
        = (⟨some (encodeIndex ["a"]), [("a", [7])]⟩, some .noSuchItem) :=
  ⟨(not_found_leaves_state "a" "z").1 ⟨some [⟨⟨"a", 0, 0, 0⟩, []⟩]⟩ true
      (Or.inr (by decide)),
   (not_found_leaves_state "z" "z").2.1 ⟨some [⟨⟨"a", 0, 0, 0⟩, []⟩]⟩ (by decide),
   (not_found_leaves_state "z" "z").2.2.2.1 ⟨some (encodeIndex ["a"]), [("a", [7])]⟩
      ["a"] rfl (by decide) (by decide)⟩

/-- C4 counterexample: on the durable backend, a successful
`Delete("a")` leaves the blob file for "a" on disk — the image blob is
not erased, contradicting the claim for the file-backed store. -/
theorem delete_blob_survives_cx :
    (fileDelete ⟨some (encodeIndex ["a"]), [("a", [7])]⟩ "a").2 = none
      ∧ ((fileDelete ⟨some (encodeIndex ["a"]), [("a", [7])]⟩ "a").1.blobs.lookup "a")
          = some [7] := ⟨rfl, rfl⟩

/-- C4 (amended): for every collection containing `id`, `Delete(id)`
removes the record from the order without disturbing the relative
order of the rest (the result is exactly the id-filtered sequence) and
afterwards `GetImage(id)` returns `NoSuchItem` on both backends; the
volatile backend erases the image together with its record, while the
durable backend leaves the blob file on disk (only the index entry is
removed). -/
theorem delete_removes_record (id : String) :
    (∀ (l : List CItem) (c : CItem), c ∈ l → c.item.id = id →
        memDelete ⟨some l⟩ id
            = (⟨some (l.filter (fun x => x.item.id != id))⟩, none)
          ∧ memGetImage ⟨some (l.filter (fun x => x.item.id != id))⟩ id
            = .error .noSuchItem)
    ∧ (∀ (L : List String) (blobs : List (String × List Nat)), id ∈ L →
        (∀ x ∈ L, safeId x = true) →
        fileDelete ⟨some (encodeIndex L), blobs⟩ id
            = (⟨some (encodeIndex (L.filter (fun x => x != id))), blobs⟩, none)
          ∧ fileGetImage ⟨some (encodeIndex (L.filter (fun x => x != id))), blobs⟩ id
            = .error .noSuchItem) := by
  constructor
  · intro l c hcl hcid
    constructor
    · unfold memDelete
      dsimp only
      rw [if_neg (fun he => filter_length_ne l (fun x => x.item.id != id) c hcl
        (by simp [hcid]) he.symm)]
      rfl
    · unfold memGetImage
      rw [show (⟨some (l.filter (fun x => x.item.id != id))⟩ : MemStore).items.getD []
          = l.filter (fun x => x.item.id != id) from rfl]
      rw [find_after_filter]
  · intro L blobs hmem hsafe
    have hdec : decodeIndexDoc (encodeIndex L) = .ok L ['\n'] := by
      have h := decode_encode L [] hsafe
      rwa [List.append_nil] at h
    have hsafe2 : ∀ x ∈ L.filter (fun x => x != id), safeId x = true :=
      fun x hx => hsafe x (List.mem_filter.mp hx).1
    have hdec2 : decodeIndexDoc (encodeIndex (L.filter (fun x => x != id)))
        = .ok (L.filter (fun x => x != id)) ['\n'] := by
      have h := decode_encode _ [] hsafe2
      rwa [List.append_nil] at h
    constructor
    · unfold fileDelete
      rw [show (⟨some (encodeIndex L), blobs⟩ : FS).index = some (encodeIndex L) from rfl]
      simp only [hdec]
      rw [if_neg (fun he => filter_length_ne L (fun x => x != id) id hmem
        (by simp) he.symm)]
      rw [truncateAt_overwrite]
    · unfold fileGetImage
      rw [show (⟨some (encodeIndex (L.filter (fun x => x != id))), blobs⟩ : FS).index
          = some (encodeIndex (L.filter (fun x => x != id))) from rfl]
      simp only [hdec2]
      rw [if_neg (by
        rw [contains_false_of_not_mem _ id (fun hx => by
          have := (List.mem_filter.mp hx).2
          simp at this)]
        simp)]

theorem delete_removes_record_witness :
    memDelete ⟨some [⟨⟨"a", 0, 0, 0⟩, [7]⟩, ⟨⟨"b", 0, 0, 0⟩, [8]⟩]⟩ "a"
        = (⟨some [⟨⟨"b", 0, 0, 0⟩, [8]⟩]⟩, none)
      ∧ fileDelete ⟨some (encodeIndex ["a", "b"]), [("a", [7]), ("b", [8])]⟩ "a"
        = (⟨some (encodeIndex ["b"]), [("a", [7]), ("b", [8])]⟩, none) := by
  have h1 := ((delete_removes_record "a").1
    [⟨⟨"a", 0, 0, 0⟩, [7]⟩, ⟨⟨"b", 0, 0, 0⟩, [8]⟩] ⟨⟨"a", 0, 0, 0⟩, [7]⟩
    (by decide) rfl).1
  have h2 := ((delete_removes_record "a").2 ["a", "b"] [("a", [7]), ("b", [8])]
    (by decide) (by decide)).1
  exact ⟨h1, h2⟩

/-- C10: `Update` replaces only the record at the first index whose id
matches: the new state is `set i ⟨new record, old image⟩`, so the image
bytes stored at that index, the item's position, and every other slot
(record and image) are unchanged. -/
theorem update_replaces_first_only (l : List CItem) (it : Item) (i : Nat)
    (hi : i < l.length) (hmatch : l[i].item.id = it.id)
    (hfirst : ∀ m, m < i → ∀ hm : m < l.length, l[m].item.id ≠ it.id) :
    memUpdate ⟨some l⟩ it = (⟨some (l.set i ⟨it, l[i].image⟩)⟩, none)
      ∧ (l.set i ⟨it, l[i].image⟩).map (fun c => c.image) = l.map (fun c => c.image)
      ∧ (∀ k, k ≠ i → (l.set i ⟨it, l[i].image⟩)[k]? = l[k]?)
      ∧ (l.set i ⟨it, l[i].image⟩)[i]? = some ⟨it, l[i].image⟩ := by
  refine ⟨?_, ?_, ?_, ?_⟩
  · unfold memUpdate
    rw [show (⟨some l⟩ : MemStore).items.getD [] = l from rfl]
    rw [memUpdateList_spec it l i hi hmatch hfirst]
  · rw [List.map_set]
    dsimp only
    have hiM : i < (l.map (fun c => c.image)).length := by simpa using hi
    have hMi : (l.map (fun c => c.image))[i] = l[i].image := List.getElem_map _
    rw [← hMi]
    exact set_getElem_self_eq _ i hiM
  · exact fun k hk => List.getElem?_set_ne (Ne.symm hk)
  · exact List.getElem?_set_self (by simpa using hi)

theorem update_replaces_first_only_witness :
    memUpdate ⟨some [⟨⟨"a", 0, 0, 0⟩, [7]⟩, ⟨⟨"b", 0, 0, 0⟩, [8]⟩]⟩ ⟨"b", 1, 0, 0⟩
      = (⟨some [⟨⟨"a", 0, 0, 0⟩, [7]⟩, ⟨⟨"b", 1, 0, 0⟩, [8]⟩]⟩, none) :=
  (update_replaces_first_only [⟨⟨"a", 0, 0, 0⟩, [7]⟩, ⟨⟨"b", 0, 0, 0⟩, [8]⟩]
    ⟨"b", 1, 0, 0⟩ 1 (by decide) (by decide)
    (fun m hm hml => by
      have hm0 : m = 0 := by omega
      subst hm0
      simp)).1

theorem lookup_append_of_none (l1 l2 : List (String × List Nat)) (a : String)
    (h : l1.lookup a = none) : (l1 ++ l2).lookup a = l2.lookup a := by
  induction l1 with
  | nil => rfl
  | cons p l ih =>
    obtain ⟨k, v⟩ := p
    simp only [List.cons_append, List.lookup] at h ⊢
    cases hak : (a == k) with
    | true =>
      rw [hak] at h
      dsimp only at h
      cases h
    | false =>
      rw [hak] at h
      dsimp only at h ⊢
      exact ih h

theorem contains_true_of_mem (l : List String) (a : String) (h : a ∈ l) :
    l.contains a = true :=
  List.contains_iff_exists_mem_beq.mpr ⟨a, h, by simp⟩

/-- C8: `GetImage(id)` fails with `NoSuchItem` exactly when `id` is not
present in the index — on the durable backend this is checked against
the index document regardless of which blob files exist on disk — and
when `id` is present it returns the stored bytes, which are exactly the
bytes passed to `Create` for that id. (On the durable backend the
stored-bytes clause assumes the 1:1 record/blob invariant of spec §3;
an indexed id whose blob file has been externally removed also surfaces
as `NoSuchItem`.) -/
theorem getImage_membership (id : String) :
    (∀ s : MemStore, (∀ c ∈ s.items.getD [], c.item.id ≠ id) →
        memGetImage s id = .error .noSuchItem)
    ∧ (∀ (l : List CItem) (c : CItem),
        l.find? (fun c => c.item.id == id) = some c →
        memGetImage ⟨some l⟩ id = .ok c.image)
    ∧ (∀ (s : MemStore) (img : List Nat),
        (∀ c ∈ s.items.getD [], c.item.id ≠ id) →
        memGetImage (memCreate s id img).1 id = .ok img)
    ∧ (∀ (L : List String) (blobs : List (String × List Nat)),
        (∀ x ∈ L, safeId x = true) → id ∉ L →
        fileGetImage ⟨some (encodeIndex L), blobs⟩ id = .error .noSuchItem)
    ∧ (∀ (L : List String) (blobs : List (String × List Nat)) (b : List Nat),
        (∀ x ∈ L, safeId x = true) → id ∈ L → blobs.lookup id = some b →
        fileGetImage ⟨some (encodeIndex L), blobs⟩ id = .ok b)
    ∧ (∀ (L : List String) (blobs : List (String × List Nat)) (img : List Nat),
        (∀ x ∈ L, safeId x = true) → safeId id = true →
        blobs.lookup id = none →
        fileGetImage (fileCreate ⟨some (encodeIndex L), blobs⟩ id img).1 id
          = .ok img) := by
  refine ⟨?_, ?_, ?_, ?_, ?_, ?_⟩
  · intro s habs
    unfold memGetImage
    rw [List.find?_eq_none.mpr (fun x hx => by simpa using habs x hx)]
  · intro l c hfind
    unfold memGetImage
    rw [show (⟨some l⟩ : MemStore).items.getD [] = l from rfl, hfind]
  · intro s img habs
    unfold memGetImage memCreate
    rw [show ((⟨some (s.items.getD [] ++ [⟨⟨id, 0, 0, 0⟩, img⟩])⟩ : MemStore), Item.mk id 0 0 0).1.items.getD []
        = s.items.getD [] ++ [⟨⟨id, 0, 0, 0⟩, img⟩] from rfl]
    rw [List.find?_append, List.find?_eq_none.mpr (fun x hx => by simpa using habs x hx)]
    simp
  · intro L blobs hsafe habs
    have hdec : decodeIndexDoc (encodeIndex L) = .ok L ['\n'] := by
      have h := decode_encode L [] hsafe
      rwa [List.append_nil] at h
    unfold fileGetImage
    rw [show (⟨some (encodeIndex L), blobs⟩ : FS).index = some (encodeIndex L) from rfl]
    simp only [hdec]
    rw [if_neg (by rw [contains_false_of_not_mem L id habs]; simp)]
  · intro L blobs b hsafe hmem hlook
    have hdec : decodeIndexDoc (encodeIndex L) = .ok L ['\n'] := by
      have h := decode_encode L [] hsafe
      rwa [List.append_nil] at h
    unfold fileGetImage
    rw [show (⟨some (encodeIndex L), blobs⟩ : FS).index = some (encodeIndex L) from rfl]
    simp only [hdec]
    rw [if_pos (contains_true_of_mem L id hmem), hlook]
  · intro L blobs img hsafe hsafeid hlook
    have hsafe2 : ∀ x ∈ L ++ [id], safeId x = true := by
      intro x hx
      rcases List.mem_append.mp hx with h | h
      · exact hsafe x h
      · rw [List.mem_singleton.mp h]
        exact hsafeid
    have hdec : decodeIndexDoc (encodeIndex L) = .ok L ['\n'] := by
      have h := decode_encode L [] hsafe
      rwa [List.append_nil] at h
    have hdec2 : decodeIndexDoc (encodeIndex (L ++ [id])) = .ok (L ++ [id]) ['\n'] := by
      have h := decode_encode (L ++ [id]) [] hsafe2
      rwa [List.append_nil] at h
    unfold fileCreate
    rw [if_neg (by rw [hlook]; simp)]
    rw [show (⟨some (encodeIndex L), blobs⟩ : FS).index.getD [] = encodeIndex L from rfl]
    simp only [hdec]
    unfold fileGetImage
    rw [show (⟨some (overwrite (encodeIndex L) (encodeIndex (L ++ [id]))),
        blobs ++ [(id, img)]⟩ : FS).index
      = some (overwrite (encodeIndex L) (encodeIndex (L ++ [id]))) from rfl]
    rw [overwrite_encodeIndex_append]
    simp only [hdec2]
    rw [if_pos (contains_true_of_mem _ id (by simp))]
    rw [lookup_append_of_none blobs [(id, img)] id hlook]
    simp [List.lookup]

theorem getImage_membership_witness :
    memGetImage ⟨some [⟨⟨"b", 0, 0, 0⟩, [9]⟩]⟩ "a" = .error .noSuchItem
      ∧ fileGetImage ⟨some (encodeIndex ["b"]), [("a", [7])]⟩ "a" = .error .noSuchItem
      ∧ fileGetImage ⟨some (encodeIndex ["a", "b"]), [("a", [7])]⟩ "a" = .ok [7] :=
  ⟨(getImage_membership "a").1 ⟨some [⟨⟨"b", 0, 0, 0⟩, [9]⟩]⟩ (by decide),
   (getImage_membership "a").2.2.2.1 ["b"] [("a", [7])] (by decide) (by decide),
   (getImage_membership "a").2.2.2.2.1 ["a", "b"] [("a", [7])] [7]
     (by decide) (by decide) (by decide)⟩

/-- C6 counterexample: `All()` on a freshly constructed store (either
backend) returns Go's nil slice — the JSON-absent value — rather than a
non-nil empty sequence. -/
theorem all_fresh_returns_nil_cx :
    memAll memNewStore = .ok none ∧ (none : Option (List Item)) ≠ some []
      ∧ fileAll fileNewStore = .ok none
      ∧ (none : Option (List String)) ≠ some [] :=
  ⟨rfl, by simp, rfl, by simp⟩

/-- C6 (amended): `All()` on a never-populated store returns the nil
(length-zero, JSON-absent) sequence and no error — the HTTP handler, not
the store, substitutes an empty array before encoding; on a populated
store `All()` returns by value exactly the stored sequence of records
(for the durable backend, the decoded index document). -/
theorem all_nil_or_copy :
    (memAll memNewStore = .ok none ∧ fileAll fileNewStore = .ok none)
    ∧ (∀ l : List CItem, memAll ⟨some l⟩ = .ok (some (l.map (fun c => c.item))))
    ∧ (∀ (L : List String) (blobs : List (String × List Nat)),
        (∀ x ∈ L, safeId x = true) →
        fileAll ⟨some (encodeIndex L), blobs⟩ = .ok (some L)) := by
  refine ⟨⟨rfl, rfl⟩, fun l => rfl, ?_⟩
  intro L blobs hsafe
  have hdec : decodeIndexDoc (encodeIndex L) = .ok L ['\n'] := by
    have h := decode_encode L [] hsafe
    rwa [List.append_nil] at h
  unfold fileAll
  rw [show (⟨some (encodeIndex L), blobs⟩ : FS).index = some (encodeIndex L) from rfl]
  simp only [hdec]

theorem all_nil_or_copy_witness :
    fileAll ⟨some (encodeIndex ["a"]), []⟩ = .ok (some ["a"]) :=
  all_nil_or_copy.2.2 ["a"] [] (by decide)

/-- C9: the spec §8 concrete scenario on the volatile store: create A,
B, C in order with empty images, `All` lists them in creation order;
`MoveBefore(C, A)` yields C, A, B; `Delete(A)` yields C, B; updating B
to `{x: 0.5, y: 0.5, width: 0.2}` changes the record at position 1 to
the new field values with the id unchanged. -/
theorem concrete_scenario :
    memAll scenarioS3
        = .ok (some [⟨"A", 0, 0, 0⟩, ⟨"B", 0, 0, 0⟩, ⟨"C", 0, 0, 0⟩])
      ∧ (memMove scenarioS3 "C" "A" true).2 = none
      ∧ memAll scenarioS4
        = .ok (some [⟨"C", 0, 0, 0⟩, ⟨"A", 0, 0, 0⟩, ⟨"B", 0, 0, 0⟩])
      ∧ (memDelete scenarioS4 "A").2 = none
      ∧ memAll scenarioS5 = .ok (some [⟨"C", 0, 0, 0⟩, ⟨"B", 0, 0, 0⟩])
      ∧ (memUpdate scenarioS5 ⟨"B", 0.5, 0.5, 0.2⟩).2 = none
      ∧ memAll scenarioS6
        = .ok (some [⟨"C", 0, 0, 0⟩, ⟨"B", 0.5, 0.5, 0.2⟩]) := by
  refine ⟨rfl, rfl, rfl, rfl, rfl, rfl, rfl⟩

/-- C5 counterexample: `Create` omits the truncation step. Starting
from a decodable index document with trailing bytes, the file after a
successful `Create` is not exactly the encoding of the new list:
leftover bytes of the longer prior content survive. -/
theorem create_no_truncate_cx :
    (fileCreate ⟨some ('[' :: ']' :: ['x', 'x', 'x', 'x', 'x']), []⟩ "a" []).2
        = .ok "a"
      ∧ (fileCreate ⟨some ('[' :: ']' :: ['x', 'x', 'x', 'x', 'x']), []⟩ "a" []).1.index
        = some (encodeIndex ["a"] ++ ['x'])
      ∧ encodeIndex ["a"] ++ ['x'] ≠ encodeIndex ["a"] :=
  ⟨rfl, rfl, by decide⟩

/-- C5 (amended): `Delete` and `MoveBefore`/`MoveAfter` follow the full
read-modify-write-truncate sequence, so from a file holding exactly the
encoding of the current list they leave exactly the encoding of the new
list; `Create` follows read-modify-write without the truncate step,
which still leaves exactly the new encoding because appending an id
never shortens the encoding; `Create` treats an absent (or empty) index
file as the empty list. -/
theorem rmw_truncate_persists (id tgt : String) :
    (∀ (L : List String) (blobs : List (String × List Nat)) (img : List Nat),
        (∀ x ∈ L, safeId x = true) → blobs.lookup id = none →
        fileCreate ⟨some (encodeIndex L), blobs⟩ id img
          = (⟨some (encodeIndex (L ++ [id])), blobs ++ [(id, img)]⟩, .ok id))
    ∧ (∀ (blobs : List (String × List Nat)) (img : List Nat),
        blobs.lookup id = none →
        fileCreate ⟨none, blobs⟩ id img
          = (⟨some (encodeIndex [id]), blobs ++ [(id, img)]⟩, .ok id))
    ∧ (∀ (L : List String) (blobs : List (String × List Nat)) (b : Bool)
        (L2 : List String),
        (∀ x ∈ L, safeId x = true) →
        moveGo (fun s => s) L id tgt b = .ok L2 →
        fileMove ⟨some (encodeIndex L), blobs⟩ id tgt b
          = (⟨some (encodeIndex L2), blobs⟩, none))
    ∧ (∀ (L : List String) (blobs : List (String × List Nat)),
        (∀ x ∈ L, safeId x = true) → id ∈ L →
        fileDelete ⟨some (encodeIndex L), blobs⟩ id
          = (⟨some (encodeIndex (L.filter (fun x => x != id))), blobs⟩, none)) := by
  refine ⟨?_, ?_, ?_, ?_⟩
  · intro L blobs img hsafe hlook
    have hdec : decodeIndexDoc (encodeIndex L) = .ok L ['\n'] := by
      have h := decode_encode L [] hsafe
      rwa [List.append_nil] at h
    unfold fileCreate
    rw [if_neg (by rw [hlook]; simp)]
    rw [show (⟨some (encodeIndex L), blobs⟩ : FS).index.getD [] = encodeIndex L from rfl]
    simp only [hdec]
    rw [overwrite_encodeIndex_append]
  · intro blobs img hlook
    unfold fileCreate overwrite
    rw [if_neg (by rw [hlook]; simp)]
    simp only [Option.getD_none, decodeIndexDoc, List.drop_nil, List.append_nil]
  · intro L blobs b L2 hsafe hmv
    have hdec : decodeIndexDoc (encodeIndex L) = .ok L ['\n'] := by
      have h := decode_encode L [] hsafe
      rwa [List.append_nil] at h
    unfold fileMove
    rw [show (⟨some (encodeIndex L), blobs⟩ : FS).index = some (encodeIndex L) from rfl]
    simp only [hdec, hmv]
    rw [truncateAt_overwrite]
  · intro L blobs hsafe hmem
    have hdec : decodeIndexDoc (encodeIndex L) = .ok L ['\n'] := by
      have h := decode_encode L [] hsafe
      rwa [List.append_nil] at h
    unfold fileDelete
    rw [show (⟨some (encodeIndex L), blobs⟩ : FS).index = some (encodeIndex L) from rfl]
    simp only [hdec]
    rw [if_neg (fun he => filter_length_ne L (fun x => x != id) id hmem
      (by simp) he.symm)]
    rw [truncateAt_overwrite]

theorem rmw_truncate_persists_witness :
    fileCreate ⟨some (encodeIndex ["a"]), [("a", [7])]⟩ "b" [8]
        = (⟨some (encodeIndex ["a", "b"]), [("a", [7]), ("b", [8])]⟩, .ok "b")
      ∧ fileMove ⟨some (encodeIndex ["a", "b", "c"]), []⟩ "c" "a" true
        = (⟨some (encodeIndex ["c", "a", "b"]), []⟩, none)
      ∧ fileDelete ⟨some (encodeIndex ["a", "b"]), []⟩ "b"
        = (⟨some (encodeIndex ["a"]), []⟩, none) :=
  ⟨(rmw_truncate_persists "b" "z").1 ["a"] [("a", [7])] [8] (by decide) (by decide),
   (rmw_truncate_persists "c" "a").2.2.1 ["a", "b", "c"] [] true ["c", "a", "b"]
     (by decide) rfl,
   (rmw_truncate_persists "b" "z").2.2.2 ["a", "b"] [] (by decide) (by decide)⟩

end Moodboard

section SanityChecks
open Moodboard

-- sanity checks mirroring TestStoreMoveBefore / TestStoreMoveAfter (part_008)
example : moveGo (fun s => s) ["0", "1", "2"] "0" "2" true = .ok ["1", "0", "2"] := rfl
example : moveGo (fun s => s) ["0", "1", "2"] "0" "1" true = .ok ["0", "1", "2"] := rfl
example : moveGo (fun s => s) ["0", "1", "2"] "2" "0" true = .ok ["2", "0", "1"] := rfl
example : moveGo (fun s => s) ["0", "1", "2"] "2" "1" true = .ok ["0", "2", "1"] := rfl
example : moveGo (fun s => s) ["0", "1", "2"] "1" "1" true = .ok ["0", "1", "2"] := rfl
example : moveGo (fun s => s) ["0", "1", "2"] "0" "2" false = .ok ["1", "2", "0"] := rfl
example : moveGo (fun s => s) ["0", "1", "2"] "0" "1" false = .ok ["1", "0", "2"] := rfl
example : moveGo (fun s => s) ["0", "1", "2"] "2" "0" false = .ok ["0", "2", "1"] := rfl
example : moveGo (fun s => s) ["0", "1", "2"] "0" "9" true = .error .noSuchItem := rfl
example : moveGo (fun s => s) ["A", "B", "C", "D", "E", "F"] "B" "F" false
    = .ok ["A", "C", "D", "E", "F", "B"] := rfl
example : moveGo (fun s => s) ["A", "B", "C", "D", "E", "F"] "E" "B" true
    = .ok ["A", "E", "B", "C", "D", "F"] := rfl
example : specMove ["0", "1", "2"] 0 2 true = ["1", "0", "2"] := rfl
example : specMove ["0", "1", "2"] 2 1 true = ["0", "2", "1"] := rfl

-- store-level sanity checks
example : decodeIndexDoc (encodeIndex ["a", "b"]) = .ok ["a", "b"] ['\n'] := rfl
example : decodeIndexDoc (encodeIndex []) = .ok [] ['\n'] := rfl
example : decodeIndexDoc [] = .eof := rfl
example :
    (fileCreate fileNewStore "a" [1, 2]).1
      = ⟨some (encodeIndex ["a"]), [("a", [1, 2])]⟩ := rfl
example : fileAll ⟨some (encodeIndex ["a", "b"]), []⟩ = .ok (some ["a", "b"]) := rfl
example : (fileDelete ⟨some (encodeIndex ["a", "b"]), []⟩ "a").1.index
    = some (encodeIndex ["b"]) := rfl
example : (fileMove ⟨some (encodeIndex ["a", "b", "c"]), []⟩ "c" "a" true).1.index
    = some (encodeIndex ["c", "a", "b"]) := rfl
example : memAll (memCreate (memCreate memNewStore "A" []).1 "B" [7]).1
    = .ok (some [⟨"A", 0, 0, 0⟩, ⟨"B", 0, 0, 0⟩]) := rfl
example : memGetImage (memCreate (memCreate memNewStore "A" []).1 "B" [7]).1 "B"
    = .ok [7] := rfl
example : (memDelete (memCreate memNewStore "A" [5]).1 "A").1 = ⟨some []⟩ := rfl
example : memAll memNewStore = .ok none := rfl

end SanityChecks
